import Mathlib

/-!
Verification of the core of the `next-meeting` tool: the event-to-status
reducer (`calendar.GetMeetingStatus`), the response filter, the snapshot
cache (`cache.Read` / `cache.Write`), and the notification dedup store
(`notify.ShouldNotify`, `notify.HasBeenNotified`, `notify.MarkNotified`,
`notify.Clear`, `notify.CleanOldNotifications`).

Instants (`time.Time`) are modelled as integers (nanoseconds since an
epoch); `time.Time` comparisons `Before`/`After` become `<` on `Int`.
`now`, read by the Go code via `time.Now()`, becomes an explicit
parameter. Go `nil`-able pointers become `Option`. Every definition is
total and computable, matching the Go code, which never panics on these
paths.
-/

namespace NextMeeting

namespace Calendar

/-- The Go struct `calendar.MeetingInfo`. Field names follow the source.
The `SelfResponseStatus` field appears in the repository's data model and
tests (`calendar_test.go`); timestamps are integer instants. -/
structure MeetingInfo where
  Summary : String
  Start : Int
  End : Int
  IsAllDay : Bool
  Location : String
  Attendees : Nat
  SelfResponseStatus : String
deriving Repr, DecidableEq

/-- The Go struct `calendar.MeetingStatus`: the reduced current/next view. -/
structure MeetingStatus where
  CurrentMeeting : Option MeetingInfo
  NextMeeting : Option MeetingInfo
deriving Repr, DecidableEq

/-- The loop's current-meeting test, verbatim from
`!now.Before(meeting.Start) && now.Before(meeting.End)`
(calendar.go line 105). -/
def currentCond (now : Int) (m : MeetingInfo) : Bool :=
  !decide (now < m.Start) && decide (now < m.End)

/-- The loop's future-meeting test, verbatim from
`now.Before(meeting.Start)` (calendar.go line 114). -/
def nextCond (now : Int) (m : MeetingInfo) : Bool :=
  decide (now < m.Start)

/-- The replace-on-better-candidate accumulator for the current meeting:
`if status.CurrentMeeting == nil || meeting.Start.After(status.CurrentMeeting.Start)`
(calendar.go line 107). -/
def bestCur (acc : Option MeetingInfo) (m : MeetingInfo) : Option MeetingInfo :=
  match acc with
  | none => some m
  | some c => if c.Start < m.Start then some m else some c

/-- The replace-on-better-candidate accumulator for the next meeting:
`if status.NextMeeting == nil || meeting.Start.Before(status.NextMeeting.Start)`
(calendar.go line 115). -/
def bestNext (acc : Option MeetingInfo) (m : MeetingInfo) : Option MeetingInfo :=
  match acc with
  | none => some m
  | some c => if m.Start < c.Start then some m else some c

/-- One iteration of the loop body of `GetMeetingStatus`
(calendar.go lines 103-119). The `continue` after the current-meeting
branch makes the future-meeting test an `else if`. -/
def getMeetingStatusStep (now : Int) (status : MeetingStatus) (meeting : MeetingInfo) :
    MeetingStatus :=
  if currentCond now meeting then
    { status with CurrentMeeting := bestCur status.CurrentMeeting meeting }
  else if nextCond now meeting then
    { status with NextMeeting := bestNext status.NextMeeting meeting }
  else
    status

/-- Function `calendar.GetMeetingStatus` (calendar.go lines 99-122): a
single left-to-right pass over the events, starting from the empty
status. The Go code reads `time.Now()` once at entry; here `now` is a
parameter. -/
def GetMeetingStatus (now : Int) (events : List MeetingInfo) : MeetingStatus :=
  events.foldl (getMeetingStatusStep now) { CurrentMeeting := none, NextMeeting := none }

/-- Modelled from the spec: the implementation of `FilterAccepted` is not
among the sources (only its tests in `calendar_test.go` are). Per the
spec it is a total, order-preserving single pass that keeps a meeting iff
`selfResponseStatus ∈ {accepted, tentative}`, appending keepers to an
initially empty output sequence (so an empty, never absent, sequence
results when nothing qualifies, and the input is not mutated). -/
def FilterAccepted (events : List MeetingInfo) : List MeetingInfo :=
  events.foldl
    (fun acc m =>
      if m.SelfResponseStatus = "accepted" ∨ m.SelfResponseStatus = "tentative" then
        acc ++ [m]
      else acc)
    []

end Calendar

namespace Cache

open Calendar

/-- The Go struct `cache.CachedData` (cache.go lines 18-21): a timestamped
snapshot of the fetched events. -/
structure CachedData where
  Timestamp : Int
  Events : List MeetingInfo
deriving Repr, DecidableEq

/-- The state of the cache file at its well-known path: it may be absent,
present but not parseable as `CachedData`, or present and parseable. -/
inductive CacheFile where
  | missing
  | corrupt
  | valid (cached : CachedData)
deriving Repr, DecidableEq

/-- The constant `cacheDuration = 30 * time.Minute` (cache.go line 14),
in nanoseconds, the unit of Go durations. -/
def cacheDuration : Int := 30 * 60 * 1000000000

/-- Function `cache.Read` (cache.go lines 30-47): an unreadable file, an
unparseable file, and an entry with `time.Since(cached.Timestamp) >
cacheDuration` all return `nil`; otherwise the stored events are
returned. `time.Since(t)` is `now - t`. -/
def Read (file : CacheFile) (now : Int) : Option (List MeetingInfo) :=
  match file with
  | .missing => none
  | .corrupt => none
  | .valid cached =>
    if cacheDuration < now - cached.Timestamp then none
    else some cached.Events

/-- Function `cache.Write` (cache.go lines 50-62) on its success path:
the file now holds `{Timestamp: now, Events: events}`, replacing any
prior content. -/
def Write (events : List MeetingInfo) (now : Int) : CacheFile :=
  .valid { Timestamp := now, Events := events }

/-- Function `cache.Clear` (cache.go lines 65-71): removes the file;
a missing file is a success. -/
def Clear : CacheFile :=
  .missing

end Cache

namespace Notify

open Calendar

/-- Identity key of a notification record. `getNotificationID` in the
source is the hex-encoded SHA-256 digest of `Summary|Start|End`; the
digest is a deterministic function of the triple, injective up to hash
collisions, so it is modelled by the triple itself. -/
abbrev NotificationID := String × Int × Int

/-- Function `notify.getNotificationID`: the dedup fingerprint of a
meeting, derived from `(Summary, Start, End)`. -/
def getNotificationID (m : MeetingInfo) : NotificationID :=
  (m.Summary, m.Start, m.End)

/-- The notify directory (`$TMPDIR/next-meeting-notify`): one marker file
per notification ID, carrying its last write (mod) time. -/
abbrev NotifyStore := List (NotificationID × Int)

/-- The `os.Stat` call on a marker file: reports existence and leaves the
directory unchanged. -/
def statOp (store : NotifyStore) (key : NotificationID) : Bool × NotifyStore :=
  (store.any (fun e => e.1 = key), store)

/-- Function `notify.HasBeenNotified`: stats the marker file of the
meeting's fingerprint; true iff it exists. Returns the resulting
directory state alongside, making the effect on the store explicit. -/
def HasBeenNotifiedOp (store : NotifyStore) (m : MeetingInfo) : Bool × NotifyStore :=
  statOp store (getNotificationID m)

/-- The value returned by `notify.HasBeenNotified`. -/
def HasBeenNotified (store : NotifyStore) (m : MeetingInfo) : Bool :=
  (HasBeenNotifiedOp store m).1

/-- The `os.WriteFile` call on a marker file: creates or replaces the
entry, stamping the current time. -/
def writeOp (store : NotifyStore) (key : NotificationID) (now : Int) : NotifyStore :=
  (key, now) :: store.filter (fun e => ¬ e.1 = key)

/-- Function `notify.MarkNotified` (success path): ensures the directory
exists and writes the marker file for the meeting's fingerprint. -/
def MarkNotified (store : NotifyStore) (m : MeetingInfo) (now : Int) : NotifyStore :=
  writeOp store (getNotificationID m) now

/-- Function `notify.ShouldNotify` (the second document of
calendar_test.go, lines 964-983): returns the next meeting unless it is
absent, `time.Until(next.Start) = next.Start - now` is nonpositive or
exceeds the threshold, or the meeting has already been notified. The
directory state is threaded through the single read it performs. -/
def ShouldNotifyOp (store : NotifyStore) (status : MeetingStatus) (threshold now : Int) :
    Option MeetingInfo × NotifyStore :=
  match status.NextMeeting with
  | none => (none, store)
  | some next =>
    let startsIn := next.Start - now
    if startsIn ≤ 0 then (none, store)
    else if threshold < startsIn then (none, store)
    else
      let r := HasBeenNotifiedOp store next
      if r.1 then (none, r.2) else (some next, r.2)

/-- The value returned by `notify.ShouldNotify`. -/
def ShouldNotify (store : NotifyStore) (status : MeetingStatus) (threshold now : Int) :
    Option MeetingInfo :=
  (ShouldNotifyOp store status threshold now).1

/-- Function `notify.Clear`: `os.RemoveAll` on the notify directory,
leaving it empty. -/
def Clear : NotifyStore :=
  []

/-- The retention window of `notify.CleanOldNotifications`: 24 hours in
nanoseconds. -/
def retentionWindow : Int := 24 * 60 * 60 * 1000000000

/-- Function `notify.CleanOldNotifications`: removes every entry whose
mod time is before `now - 24h`, keeping the rest. -/
def CleanOldNotifications (store : NotifyStore) (now : Int) : NotifyStore :=
  store.filter (fun e => ¬ e.2 < now - retentionWindow)

end Notify

namespace Calendar

lemma currentCond_iff (now : Int) (m : MeetingInfo) :
    currentCond now m = true ↔ m.Start ≤ now ∧ now < m.End := by
  simp only [currentCond, Bool.and_eq_true, Bool.not_eq_true', decide_eq_false_iff_not,
    decide_eq_true_eq]
  omega

lemma nextCond_iff (now : Int) (m : MeetingInfo) :
    nextCond now m = true ↔ now < m.Start := by
  simp [nextCond]

lemma getMeetingStatusStep_current (now : Int) (st : MeetingStatus) (m : MeetingInfo) :
    (getMeetingStatusStep now st m).CurrentMeeting =
      if currentCond now m then bestCur st.CurrentMeeting m else st.CurrentMeeting := by
  by_cases h1 : currentCond now m <;> by_cases h2 : nextCond now m <;>
    simp [getMeetingStatusStep, h1, h2]

lemma getMeetingStatusStep_next (now : Int) (st : MeetingStatus) (m : MeetingInfo) :
    (getMeetingStatusStep now st m).NextMeeting =
      if !currentCond now m && nextCond now m then bestNext st.NextMeeting m
      else st.NextMeeting := by
  by_cases h1 : currentCond now m <;> by_cases h2 : nextCond now m <;>
    simp [getMeetingStatusStep, h1, h2]

lemma foldl_step_current (now : Int) (events : List MeetingInfo) (st : MeetingStatus) :
    (events.foldl (getMeetingStatusStep now) st).CurrentMeeting =
      (events.filter (fun m => currentCond now m)).foldl bestCur st.CurrentMeeting := by
  induction events generalizing st with
  | nil => rfl
  | cons hd tl ih =>
    rw [List.foldl_cons, List.filter_cons, ih]
    by_cases h : currentCond now hd <;>
      simp [getMeetingStatusStep_current, h]

lemma foldl_step_next (now : Int) (events : List MeetingInfo) (st : MeetingStatus) :
    (events.foldl (getMeetingStatusStep now) st).NextMeeting =
      (events.filter (fun m => !currentCond now m && nextCond now m)).foldl bestNext
        st.NextMeeting := by
  induction events generalizing st with
  | nil => rfl
  | cons hd tl ih =>
    rw [List.foldl_cons, List.filter_cons, ih]
    by_cases h1 : currentCond now hd <;> by_cases h2 : nextCond now hd <;>
      simp [getMeetingStatusStep_next, h1, h2]

lemma nextFilter_eq (now : Int) (events : List MeetingInfo) :
    events.filter (fun m => !currentCond now m && nextCond now m) =
      events.filter (fun m => nextCond now m) := by
  apply List.filter_congr
  intro m _
  by_cases h : now < m.Start
  · simp [currentCond, nextCond, h]
  · simp [currentCond, nextCond, h]

lemma bestCur_spec (acc : Option MeetingInfo) (m : MeetingInfo) :
    ∃ v, bestCur acc m = some v ∧ m.Start ≤ v.Start ∧
      (∀ c, acc = some c → c.Start ≤ v.Start) ∧ (acc = some v ∨ v = m) := by
  cases acc with
  | none =>
    refine ⟨m, rfl, le_refl _, ?_, Or.inr rfl⟩
    intro c hc
    cases hc
  | some c =>
    by_cases h : c.Start < m.Start
    · refine ⟨m, by simp [bestCur, h], le_refl _, ?_, Or.inr rfl⟩
      intro c' hc'
      obtain rfl : c = c' := by injection hc'
      omega
    · refine ⟨c, by simp [bestCur, h], by omega, ?_, Or.inl rfl⟩
      intro c' hc'
      obtain rfl : c = c' := by injection hc'
      omega

lemma bestNext_spec (acc : Option MeetingInfo) (m : MeetingInfo) :
    ∃ v, bestNext acc m = some v ∧ v.Start ≤ m.Start ∧
      (∀ c, acc = some c → v.Start ≤ c.Start) ∧ (acc = some v ∨ v = m) := by
  cases acc with
  | none =>
    refine ⟨m, rfl, le_refl _, ?_, Or.inr rfl⟩
    intro c hc
    cases hc
  | some c =>
    by_cases h : m.Start < c.Start
    · refine ⟨m, by simp [bestNext, h], le_refl _, ?_, Or.inr rfl⟩
      intro c' hc'
      obtain rfl : c = c' := by injection hc'
      omega
    · refine ⟨c, by simp [bestNext, h], by omega, ?_, Or.inl rfl⟩
      intro c' hc'
      obtain rfl : c = c' := by injection hc'
      omega

lemma foldl_bestCur_some (l : List MeetingInfo) :
    ∀ (acc : Option MeetingInfo) (m : MeetingInfo),
      l.foldl bestCur acc = some m →
      (acc = some m ∨ m ∈ l) ∧ (∀ c, acc = some c → c.Start ≤ m.Start) ∧
        (∀ x ∈ l, x.Start ≤ m.Start) := by
  induction l with
  | nil =>
    intro acc m h
    rw [List.foldl_nil] at h
    refine ⟨Or.inl h, ?_, by simp⟩
    intro c hc
    rw [hc] at h
    obtain rfl : c = m := by injection h
    exact le_refl _
  | cons hd tl ih =>
    intro acc m h
    rw [List.foldl_cons] at h
    obtain ⟨hmem, haccb, hlb⟩ := ih (bestCur acc hd) m h
    obtain ⟨v, hv, hmv, haccv, hidv⟩ := bestCur_spec acc hd
    have hvm : v.Start ≤ m.Start := haccb v hv
    refine ⟨?_, ?_, ?_⟩
    · rcases hmem with hacc | htl
      · rw [hv] at hacc
        obtain rfl : v = m := by injection hacc
        rcases hidv with h1 | h1
        · exact Or.inl h1
        · subst h1
          exact Or.inr (List.mem_cons_self _ _)
      · exact Or.inr (List.mem_cons_of_mem _ htl)
    · intro c hc
      have := haccv c hc
      omega
    · intro x hx
      rcases List.mem_cons.mp hx with rfl | hx'
      · omega
      · exact hlb x hx'

lemma foldl_bestNext_some (l : List MeetingInfo) :
    ∀ (acc : Option MeetingInfo) (m : MeetingInfo),
      l.foldl bestNext acc = some m →
      (acc = some m ∨ m ∈ l) ∧ (∀ c, acc = some c → m.Start ≤ c.Start) ∧
        (∀ x ∈ l, m.Start ≤ x.Start) := by
  induction l with
  | nil =>
    intro acc m h
    rw [List.foldl_nil] at h
    refine ⟨Or.inl h, ?_, by simp⟩
    intro c hc
    rw [hc] at h
    obtain rfl : c = m := by injection h
    exact le_refl _
  | cons hd tl ih =>
    intro acc m h
    rw [List.foldl_cons] at h
    obtain ⟨hmem, haccb, hlb⟩ := ih (bestNext acc hd) m h
    obtain ⟨v, hv, hmv, haccv, hidv⟩ := bestNext_spec acc hd
    have hvm : m.Start ≤ v.Start := haccb v hv
    refine ⟨?_, ?_, ?_⟩
    · rcases hmem with hacc | htl
      · rw [hv] at hacc
        obtain rfl : v = m := by injection hacc
        rcases hidv with h1 | h1
        · exact Or.inl h1
        · subst h1
          exact Or.inr (List.mem_cons_self _ _)
      · exact Or.inr (List.mem_cons_of_mem _ htl)
    · intro c hc
      have := haccv c hc
      omega
    · intro x hx
      rcases List.mem_cons.mp hx with rfl | hx'
      · omega
      · exact hlb x hx'

lemma foldl_bestCur_none (l : List MeetingInfo) :
    ∀ acc, l.foldl bestCur acc = none → acc = none ∧ l = [] := by
  induction l with
  | nil =>
    intro acc h
    rw [List.foldl_nil] at h
    exact ⟨h, rfl⟩
  | cons hd tl ih =>
    intro acc h
    rw [List.foldl_cons] at h
    obtain ⟨h1, _⟩ := ih _ h
    obtain ⟨v, hv, _⟩ := bestCur_spec acc hd
    rw [hv] at h1
    cases h1

lemma foldl_bestNext_none (l : List MeetingInfo) :
    ∀ acc, l.foldl bestNext acc = none → acc = none ∧ l = [] := by
  induction l with
  | nil =>
    intro acc h
    rw [List.foldl_nil] at h
    exact ⟨h, rfl⟩
  | cons hd tl ih =>
    intro acc h
    rw [List.foldl_cons] at h
    obtain ⟨h1, _⟩ := ih _ h
    obtain ⟨v, hv, _⟩ := bestNext_spec acc hd
    rw [hv] at h1
    cases h1

lemma getMeetingStatus_current_eq (now : Int) (events : List MeetingInfo) :
    (GetMeetingStatus now events).CurrentMeeting =
      (events.filter (fun m => currentCond now m)).foldl bestCur none :=
  foldl_step_current now events _

lemma getMeetingStatus_next_eq (now : Int) (events : List MeetingInfo) :
    (GetMeetingStatus now events).NextMeeting =
      (events.filter (fun m => nextCond now m)).foldl bestNext none := by
  rw [GetMeetingStatus, foldl_step_next, nextFilter_eq]

/-- C1. The status reducer's classification at each loop iteration:
a meeting is a current candidate iff `start <= now < end` (half-open:
ending exactly at `now` is not current, starting exactly at `now` is
current); the next-candidate branch is reached and taken iff
`now < start` strictly; and no meeting passes both tests. -/
theorem getMeetingStatus_classification (now : Int) (m : MeetingInfo) :
    (currentCond now m = true ↔ m.Start ≤ now ∧ now < m.End) ∧
    ((currentCond now m = false ∧ nextCond now m = true) ↔ now < m.Start) ∧
    ¬(currentCond now m = true ∧ nextCond now m = true) := by
  have hCf : currentCond now m = false ↔ ¬(m.Start ≤ now ∧ now < m.End) := by
    rw [← Bool.not_eq_true, currentCond_iff]
  refine ⟨currentCond_iff now m, ?_, ?_⟩
  · rw [hCf, nextCond_iff]
    omega
  · rw [currentCond_iff, nextCond_iff]
    omega

/-- Witness for C1 at a concrete meeting and instant. -/
theorem getMeetingStatus_classification_witness :
    let m : MeetingInfo := ⟨"Standup", -10, 10, false, "", 2, "accepted"⟩
    m.Start ≤ (0 : Int) ∧ (0 : Int) < m.End :=
  (getMeetingStatus_classification 0 ⟨"Standup", -10, 10, false, "", 2, "accepted"⟩).1.mp
    (by decide)

/-- C2, failing input. The loop replaces the current (resp. next)
candidate only on a strictly later (resp. strictly earlier) start, so at
identical starts the meeting appearing first in the input wins regardless
of duration: with two current candidates starting together, the longer
one listed first is kept, and likewise for two next candidates — while
the repository's own tests (`calendar_test.go`, "same start time -
shorter takes precedence") and the spec demand the shorter one. The
equal-start-and-end half of the claim (earlier input order wins) is what
the code implements. Times are seconds here for readability; only their
order and differences matter. -/
theorem getMeetingStatus_equal_start_keeps_first :
    (GetMeetingStatus 0
        [⟨"Long Meeting", -1800, 5400, false, "Test Location", 5, ""⟩,
         ⟨"Short Meeting", -1800, 1800, false, "Test Location", 5, ""⟩]).CurrentMeeting =
      some ⟨"Long Meeting", -1800, 5400, false, "Test Location", 5, ""⟩ ∧
    (GetMeetingStatus 0
        [⟨"Long Future", 3600, 10800, false, "Test Location", 5, ""⟩,
         ⟨"Short Future", 3600, 7200, false, "Test Location", 5, ""⟩]).NextMeeting =
      some ⟨"Long Future", 3600, 10800, false, "Test Location", 5, ""⟩ := by
  constructor <;> rfl

/-- C3. For every input list and instant, independent of input order:
a returned current meeting is a current candidate with the latest start
among current candidates, and none is returned only when there is no
current candidate; a returned next meeting is a next candidate with the
earliest start among next candidates, and none is returned only when
there is no next candidate. -/
theorem getMeetingStatus_extremal (now : Int) (events : List MeetingInfo) :
    (∀ m, (GetMeetingStatus now events).CurrentMeeting = some m →
        m ∈ events ∧ m.Start ≤ now ∧ now < m.End ∧
          ∀ m' ∈ events, m'.Start ≤ now → now < m'.End → m'.Start ≤ m.Start) ∧
    ((GetMeetingStatus now events).CurrentMeeting = none →
        ∀ m ∈ events, ¬(m.Start ≤ now ∧ now < m.End)) ∧
    (∀ m, (GetMeetingStatus now events).NextMeeting = some m →
        m ∈ events ∧ now < m.Start ∧
          ∀ m' ∈ events, now < m'.Start → m.Start ≤ m'.Start) ∧
    ((GetMeetingStatus now events).NextMeeting = none →
        ∀ m ∈ events, ¬(now < m.Start)) := by
  refine ⟨?_, ?_, ?_, ?_⟩
  · intro m h
    rw [getMeetingStatus_current_eq] at h
    obtain ⟨hmem, _, hub⟩ := foldl_bestCur_some _ _ _ h
    rcases hmem with hacc | hfil
    · cases hacc
    · obtain ⟨hin, hcond⟩ := List.mem_filter.mp hfil
      obtain ⟨h1, h2⟩ := (currentCond_iff now m).mp hcond
      refine ⟨hin, h1, h2, ?_⟩
      intro m' hm' hs' he'
      exact hub m'
        (List.mem_filter.mpr ⟨hm', (currentCond_iff now m').mpr ⟨hs', he'⟩⟩)
  · intro h m hm hcond
    rw [getMeetingStatus_current_eq] at h
    obtain ⟨_, hnil⟩ := foldl_bestCur_none _ _ h
    have hmf : m ∈ events.filter (fun m => currentCond now m) :=
      List.mem_filter.mpr ⟨hm, (currentCond_iff now m).mpr hcond⟩
    rw [hnil] at hmf
    cases hmf
  · intro m h
    rw [getMeetingStatus_next_eq] at h
    obtain ⟨hmem, _, hlb⟩ := foldl_bestNext_some _ _ _ h
    rcases hmem with hacc | hfil
    · cases hacc
    · obtain ⟨hin, hcond⟩ := List.mem_filter.mp hfil
      refine ⟨hin, (nextCond_iff now m).mp hcond, ?_⟩
      intro m' hm' hs'
      exact hlb m' (List.mem_filter.mpr ⟨hm', (nextCond_iff now m').mpr hs'⟩)
  · intro h m hm hcond
    rw [getMeetingStatus_next_eq] at h
    obtain ⟨_, hnil⟩ := foldl_bestNext_none _ _ h
    have hmf : m ∈ events.filter (fun m => nextCond now m) :=
      List.mem_filter.mpr ⟨hm, (nextCond_iff now m).mpr hcond⟩
    rw [hnil] at hmf
    cases hmf

/-- Witness for C3: on a concrete unsorted list with two overlapping
current candidates, the returned one bounds the other's start. -/
theorem getMeetingStatus_extremal_witness :
    (⟨"Earlier Current", -3600, 3600, false, "", 0, ""⟩ : MeetingInfo).Start ≤
      (⟨"Later Current", -900, 2700, false, "", 0, ""⟩ : MeetingInfo).Start := by
  have h := (getMeetingStatus_extremal 0
      [⟨"Earlier Current", -3600, 3600, false, "", 0, ""⟩,
       ⟨"Later Current", -900, 2700, false, "", 0, ""⟩]).1
    ⟨"Later Current", -900, 2700, false, "", 0, ""⟩ (by decide)
  exact h.2.2.2 _ (by decide) (by decide) (by decide)

/-- C9. A meeting with `end <= start` (zero or negative duration) is never
selected as the current meeting, for any `now` and any input list: the
interval tests stay well-defined (the reducer is a total function by
construction) and no `now` satisfies both bounds of an empty interval. -/
theorem degenerate_meeting_never_current (now : Int) (events : List MeetingInfo)
    (m : MeetingInfo) (h : m.End ≤ m.Start) :
    (GetMeetingStatus now events).CurrentMeeting ≠ some m := by
  intro hsome
  rw [getMeetingStatus_current_eq] at hsome
  obtain ⟨hmem, _, _⟩ := foldl_bestCur_some _ _ _ hsome
  rcases hmem with hacc | hfil
  · cases hacc
  · obtain ⟨_, hcond⟩ := List.mem_filter.mp hfil
    obtain ⟨h1, h2⟩ := (currentCond_iff now m).mp hcond
    omega

/-- Witness for C9 at a concrete degenerate meeting with `now` inside the
reversed bounds. -/
theorem degenerate_meeting_never_current_witness :
    (⟨"Degenerate", 10, 0, false, "", 0, ""⟩ : MeetingInfo).End ≤
        (⟨"Degenerate", 10, 0, false, "", 0, ""⟩ : MeetingInfo).Start ∧
      (GetMeetingStatus 5 [⟨"Degenerate", 10, 0, false, "", 0, ""⟩]).CurrentMeeting ≠
        some ⟨"Degenerate", 10, 0, false, "", 0, ""⟩ :=
  ⟨by decide, degenerate_meeting_never_current 5 _ _ (by decide)⟩

lemma filterAccepted_foldl (events : List MeetingInfo) (acc : List MeetingInfo) :
    events.foldl
        (fun acc m =>
          if m.SelfResponseStatus = "accepted" ∨ m.SelfResponseStatus = "tentative" then
            acc ++ [m]
          else acc)
        acc =
      acc ++ events.filter
        (fun m => m.SelfResponseStatus = "accepted" ∨ m.SelfResponseStatus = "tentative") := by
  induction events generalizing acc with
  | nil => simp
  | cons hd tl ih =>
    rw [List.foldl_cons, List.filter_cons]
    by_cases h : hd.SelfResponseStatus = "accepted" ∨ hd.SelfResponseStatus = "tentative"
    · simp [h, ih]
    · simp [h, ih]

/-- C6. The response filter returns exactly the subsequence of meetings
whose self response status is accepted or tentative, in input order
(`List.filter` keeps exactly the qualifying elements in order, and the
result is a sublist of the input). The function is total over every list,
including the empty one, where it yields the empty — never an absent —
list; being a pure function of a `List`, it cannot mutate its input. -/
theorem filterAccepted_spec (events : List MeetingInfo) :
    FilterAccepted events =
      events.filter
        (fun m => m.SelfResponseStatus = "accepted" ∨ m.SelfResponseStatus = "tentative") ∧
    (FilterAccepted events).Sublist events := by
  have h := filterAccepted_foldl events []
  rw [List.nil_append] at h
  rw [FilterAccepted, h]
  exact ⟨rfl, List.filter_sublist _⟩

end Calendar

namespace Cache

open Calendar

/-- C7. The cache read misses — returns the same `none` in all three
cases, indistinguishable to the caller — exactly when the file is
missing, its content is unparseable, or the entry's timestamp is more
than 30 minutes (`cacheDuration`) before the read time; on a fresh valid
entry it returns the stored payload. -/
theorem cacheRead_miss_iff (file : CacheFile) (now : Int) :
    (Read file now = none ↔
      file = CacheFile.missing ∨ file = CacheFile.corrupt ∨
        ∃ cached, file = CacheFile.valid cached ∧ cacheDuration < now - cached.Timestamp) ∧
    (∀ cached, file = CacheFile.valid cached → now - cached.Timestamp ≤ cacheDuration →
      Read file now = some cached.Events) := by
  constructor
  · cases file with
    | missing => simp [Read]
    | corrupt => simp [Read]
    | valid cached =>
      constructor
      · intro hn
        by_cases h : cacheDuration < now - cached.Timestamp
        · exact Or.inr (Or.inr ⟨cached, rfl, h⟩)
        · simp only [Read] at hn
          rw [if_neg h] at hn
          cases hn
      · rintro (h | h | ⟨c, hc, hlt⟩)
        · cases h
        · cases h
        · obtain rfl : cached = c := by injection hc
          simp only [Read]
          rw [if_pos hlt]
  · intro cached hf hfresh
    subst hf
    simp only [Read]
    rw [if_neg (by omega)]

/-- Witness for C7: a 30-minute-and-one-nanosecond-old entry misses; an
exactly-30-minute-old entry hits with its payload. -/
theorem cacheRead_miss_iff_witness :
    Read (CacheFile.valid ⟨0, []⟩) (cacheDuration + 1) = none ∧
      Read (CacheFile.valid ⟨0, []⟩) cacheDuration = some [] :=
  ⟨(cacheRead_miss_iff (CacheFile.valid ⟨0, []⟩) (cacheDuration + 1)).1.mpr
      (Or.inr (Or.inr ⟨⟨0, []⟩, rfl, by decide⟩)),
    (cacheRead_miss_iff (CacheFile.valid ⟨0, []⟩) cacheDuration).2 ⟨0, []⟩ rfl (by decide)⟩

/-- C8. A successful write followed by a read within the 30-minute
freshness window (and with no intervening write or clear, the file still
holding what the write put there) returns the payload that was written. -/
theorem cacheWrite_read_roundtrip (events : List MeetingInfo) (tW tR : Int)
    (h : tR - tW ≤ cacheDuration) :
    Read (Write events tW) tR = some events := by
  simp only [Read, Write]
  rw [if_neg (by omega)]

/-- Witness for C8: an immediate round trip at the same instant. -/
theorem cacheWrite_read_roundtrip_witness :
    Read (Write [] 0) 0 = some [] :=
  cacheWrite_read_roundtrip [] 0 0 (by decide)

end Cache

namespace Notify

open Calendar

lemma shouldNotifyOp_state (store : NotifyStore) (status : MeetingStatus)
    (threshold now : Int) :
    (ShouldNotifyOp store status threshold now).2 = store := by
  cases hn : status.NextMeeting with
  | none => simp [ShouldNotifyOp, hn]
  | some next =>
    simp only [ShouldNotifyOp, hn, HasBeenNotifiedOp, statOp]
    split_ifs <;> rfl

/-- C4. The notify decision returns the next meeting iff all four
conditions hold: a next meeting is present, its start is strictly in the
future, it starts within the threshold, and it has not been notified; in
every other case (`Option` dichotomy) it returns `none`. -/
theorem shouldNotify_iff (store : NotifyStore) (status : MeetingStatus)
    (threshold now : Int) (m : MeetingInfo) :
    ShouldNotify store status threshold now = some m ↔
      status.NextMeeting = some m ∧ now < m.Start ∧ m.Start - now ≤ threshold ∧
        HasBeenNotified store m = false := by
  cases hn : status.NextMeeting with
  | none =>
    simp only [ShouldNotify, ShouldNotifyOp, hn]
    constructor
    · intro h
      cases h
    · rintro ⟨hm, _⟩
      cases hm
  | some next =>
    constructor
    · intro h
      simp only [ShouldNotify, ShouldNotifyOp, hn] at h
      by_cases h1 : next.Start - now ≤ 0
      · rw [if_pos h1] at h
        cases h
      · rw [if_neg h1] at h
        by_cases h2 : threshold < next.Start - now
        · rw [if_pos h2] at h
          cases h
        · rw [if_neg h2] at h
          by_cases h3 : (HasBeenNotifiedOp store next).1 = true
          · rw [if_pos h3] at h
            cases h
          · rw [if_neg h3] at h
            have hnm : next = m := by injection h
            subst hnm
            refine ⟨rfl, by omega, by omega, ?_⟩
            simpa [HasBeenNotified] using h3
    · rintro ⟨hm, h2, h3, h4⟩
      have hnm : next = m := by injection hm
      subst hnm
      have h5 : ¬ (HasBeenNotifiedOp store next).1 = true := by
        simp only [HasBeenNotified] at h4
        simp [h4]
      simp only [ShouldNotify, ShouldNotifyOp, hn]
      rw [if_neg (by omega : ¬ next.Start - now ≤ 0),
        if_neg (by omega : ¬ threshold < next.Start - now), if_neg h5]

/-- Witness for C4: a meeting starting 100 units in the future, threshold
200, empty store. -/
theorem shouldNotify_iff_witness :
    ShouldNotify [] ⟨none, some ⟨"Soon Meeting", 100, 200, false, "", 0, ""⟩⟩ 200 0 =
      some ⟨"Soon Meeting", 100, 200, false, "", 0, ""⟩ :=
  (shouldNotify_iff [] ⟨none, some ⟨"Soon Meeting", 100, 200, false, "", 0, ""⟩⟩ 200 0
      ⟨"Soon Meeting", 100, 200, false, "", 0, ""⟩).mpr
    ⟨rfl, by decide, by decide, by decide⟩

/-- C5, failing run. `ShouldNotify` performs only reads, so two
consecutive calls with the same fixed threshold and unchanged status —
with no `MarkNotified` in between — both return the next meeting: it is
not returned exactly once before `MarkNotified` is called for it. The
store resulting from the first call is fed into the second. -/
theorem shouldNotify_repeated_counterexample :
    (ShouldNotifyOp ([] : NotifyStore)
        ⟨none, some ⟨"Soon Meeting", 100, 200, false, "", 0, ""⟩⟩ 200 0).1 =
      some ⟨"Soon Meeting", 100, 200, false, "", 0, ""⟩ ∧
    (ShouldNotifyOp
        (ShouldNotifyOp ([] : NotifyStore)
          ⟨none, some ⟨"Soon Meeting", 100, 200, false, "", 0, ""⟩⟩ 200 0).2
        ⟨none, some ⟨"Soon Meeting", 100, 200, false, "", 0, ""⟩⟩ 200 0).1 =
      some ⟨"Soon Meeting", 100, 200, false, "", 0, ""⟩ := by
  constructor <;> rfl

/-- C5 as amended. Across repeated calls with a fixed threshold and an
unchanged status, `ShouldNotify` leaves the store unchanged and therefore
returns the same result on every call (so the meeting is returned on each
qualifying call, not exactly once, until the caller intervenes); once
`MarkNotified` has been called for the next meeting, every subsequent
call returns absent, even before any cleanup runs. -/
theorem shouldNotify_until_marked (store : NotifyStore) (status : MeetingStatus)
    (threshold now tMark : Int) (m : MeetingInfo) (h : status.NextMeeting = some m) :
    (ShouldNotifyOp (ShouldNotifyOp store status threshold now).2 status threshold now).1 =
        (ShouldNotifyOp store status threshold now).1 ∧
      ShouldNotify (MarkNotified store m tMark) status threshold now = none := by
  constructor
  · rw [shouldNotifyOp_state]
  · have hb : ¬ (HasBeenNotifiedOp (MarkNotified store m tMark) m).1 = false := by
      simp [HasBeenNotifiedOp, statOp, MarkNotified, writeOp]
    simp only [ShouldNotify, ShouldNotifyOp, h]
    by_cases h1 : m.Start - now ≤ 0
    · rw [if_pos h1]
    · rw [if_neg h1]
      by_cases h2 : threshold < m.Start - now
      · rw [if_pos h2]
      · rw [if_neg h2]
        rw [if_pos (by simpa using hb)]

/-- Witness for C5 as amended, at a concrete store, meeting and instant. -/
theorem shouldNotify_until_marked_witness :
    ShouldNotify
        (MarkNotified [] ⟨"Soon Meeting", 100, 200, false, "", 0, ""⟩ 0)
        ⟨none, some ⟨"Soon Meeting", 100, 200, false, "", 0, ""⟩⟩ 200 0 = none :=
  (shouldNotify_until_marked [] ⟨none, some ⟨"Soon Meeting", 100, 200, false, "", 0, ""⟩⟩
      200 0 0 ⟨"Soon Meeting", 100, 200, false, "", 0, ""⟩ rfl).2

/-- C10. The notify decision and the dedup lookup are read-only on the
store: each returns the store it was given. Only `MarkNotified` adds a
record (the store's key set grows by exactly the meeting's fingerprint),
only `CleanOldNotifications` (a sublist of the store survives) or `Clear`
(the empty store) remove records. -/
theorem notifyStore_frame (store : NotifyStore) (status : MeetingStatus)
    (threshold now : Int) (m : MeetingInfo) (k : NotificationID) :
    (ShouldNotifyOp store status threshold now).2 = store ∧
    (HasBeenNotifiedOp store m).2 = store ∧
    (k ∈ (MarkNotified store m now).map Prod.fst ↔
      k = getNotificationID m ∨ k ∈ store.map Prod.fst) ∧
    (CleanOldNotifications store now).Sublist store ∧
    Clear = ([] : NotifyStore) := by
  refine ⟨shouldNotifyOp_state store status threshold now, rfl, ?_,
    List.filter_sublist _, rfl⟩
  simp only [MarkNotified, writeOp, List.map_cons, List.mem_cons, List.mem_map,
    List.mem_filter]
  constructor
  · rintro (rfl | ⟨e, ⟨he, hne⟩, rfl⟩)
    · exact Or.inl rfl
    · exact Or.inr ⟨e, he, rfl⟩
  · rintro (rfl | ⟨e, he, rfl⟩)
    · exact Or.inl rfl
    · by_cases hk : e.1 = getNotificationID m
      · exact Or.inl hk
      · exact Or.inr ⟨e, ⟨he, by simpa using hk⟩, rfl⟩

/-- Witness for C10 at a concrete nonempty store. -/
theorem notifyStore_frame_witness :
    (ShouldNotifyOp [(("Old", 1, 2), 5)] ⟨none, none⟩ 60 0).2 = [(("Old", 1, 2), 5)] ∧
      (HasBeenNotifiedOp [(("Old", 1, 2), 5)]
          ⟨"Soon Meeting", 100, 200, false, "", 0, ""⟩).2 = [(("Old", 1, 2), 5)] :=
  ⟨(notifyStore_frame [(("Old", 1, 2), 5)] ⟨none, none⟩ 60 0
      ⟨"Soon Meeting", 100, 200, false, "", 0, ""⟩ ("Old", 1, 2)).1,
    (notifyStore_frame [(("Old", 1, 2), 5)] ⟨none, none⟩ 60 0
      ⟨"Soon Meeting", 100, 200, false, "", 0, ""⟩ ("Old", 1, 2)).2.1⟩

end Notify

end NextMeeting
